import Mathlib

/-!
Verification of the mqtt-mux-router rule core against its specification.

The Go sources are shallowly embedded as follows.

* A Go topic string is modelled by its list of `/`-separated segments
  (the result of `strings.Split(topic, "/")`); splitting is injective
  (`strings.Join` recovers the string), so string equality corresponds to
  segment-list equality.  The empty string splits to `[""]`.
* Go `map[string]T` values that the code only reads and extends are modelled
  by association lists with first-match lookup.
* JSON payload values (`interface{}` after `json.Unmarshal`) are modelled by
  `JsonValue`.  Go numbers are `float64`; the model covers the integer-valued
  ones (the only numbers whose rendering a claim fixes) as `Int`.  JSON arrays
  are omitted: for every cited function they behave exactly like any other
  non-map value (not a map for path walking, JSON-encoded for rendering).
* Fallible Go functions returning `(T, error)` become `Except String T`;
  error strings follow the Go messages (without the surrounding quote marks).
* The repository bundles two revisions of the processor.  Namespace `V1`
  models the revision at the top of `internal/rule/processor.go`
  (pool-based, `getValueFromPath` path walking, `convertToString`);
  namespace `V2` models the revision embedded after the separator in
  `internal/rule/evaluator_test.go`, which is the one `cmd/mqtt-mux-router/main.go`
  links against (`NewProcessor(workers, logger, metrics)`) and the one
  consistent with `types.go` (`ProcessedMessage`, `MatchResult`), `index.go`
  and `topic_tree.go`.
* Go `uint64` statistics counters are modelled as `Nat`: they are only ever
  incremented and every claim is about small increments, so wraparound at
  2^64 never matters for the statements proved here.
-/

namespace MqttMux

/-- Dynamic JSON values as produced by `json.Unmarshal` into
`map[string]interface{}` (Go types `nil`, `bool`, `float64`, `string`,
`map[string]interface{}`). -/
inductive JsonValue : Type where
  | null : JsonValue
  | bool (b : Bool) : JsonValue
  | num (n : Int) : JsonValue
  | str (s : String) : JsonValue
  | obj (fields : List (String × JsonValue)) : JsonValue

/-- A parsed payload: Go `map[string]interface{}`, as an association list. -/
abbrev ValueMap := List (String × JsonValue)

/-- First-match association-list lookup, modelling Go map indexing. -/
def lookupVal : ValueMap → String → Option JsonValue
  | [], _ => none
  | (k, v) :: t, key => if k = key then some v else lookupVal t key

/-- Go `strings.Contains(s, needle)` for a one-character needle, as a scan
of the string's characters. -/
def hasChar (s : String) (c : Char) : Bool :=
  s.data.any (fun a => a = c)

/-- Helper for `splitOnChar`: emit the accumulated segment at each
separator. -/
def splitOnCharAux (sep : Char) : List Char → List Char → List String
  | [], acc => [String.mk acc.reverse]
  | c :: t, acc =>
    if c = sep then String.mk acc.reverse :: splitOnCharAux sep t []
    else splitOnCharAux sep t (c :: acc)

/-- Go `strings.Split(s, sep)` for a one-character separator; the empty
string splits to `[""]`. -/
def splitOnChar (sep : Char) (s : String) : List String :=
  splitOnCharAux sep s.data []

/-- Action from `types.go`: what to publish when a rule matches.  The
`headers` map is dropped (no claim touches it). -/
structure Action : Type where
  topic : String
  targetBroker : String
  payload : String
  qos : Nat
  retain : Bool

/-- Leaf condition from `types.go`. -/
structure Condition : Type where
  field : String
  operator : String
  value : JsonValue

/-- Condition group from `types.go`: operator, leaf items, nested groups. -/
inductive Conditions : Type where
  | mk (operator : String) (items : List Condition) (groups : List Conditions)

def Conditions.operator : Conditions → String
  | .mk op _ _ => op

def Conditions.items : Conditions → List Condition
  | .mk _ its _ => its

def Conditions.groups : Conditions → List Conditions
  | .mk _ _ gs => gs

/-- Rule from `types.go`.  `topic` is the source-topic pattern as its segment
list; `conditions == nil` is `none`.  `description`, `priority` and the
timestamps are dropped (never read by the cited code). -/
structure Rule : Type where
  topic : List String
  sourceBroker : String
  enabled : Bool
  conditions : Option Conditions
  action : Action

/-! ## Topic tree (`internal/rule/topic_tree.go`) -/

/-- Node of the wildcard trie (`TopicNode` in `topic_tree.go`).  The Go
`children map[string]*TopicNode` is an association list; the code only ever
looks children up by key and inserts fresh keys, so first-match lookup is
faithful. -/
inductive TopicNode : Type where
  | mk (segment : String) (isWildcard : Bool)
       (children : List (String × TopicNode)) (rules : List Rule)

def TopicNode.segment : TopicNode → String
  | .mk s _ _ _ => s

def TopicNode.children : TopicNode → List (String × TopicNode)
  | .mk _ _ c _ => c

def TopicNode.rules : TopicNode → List Rule
  | .mk _ _ _ r => r

def TopicNode.withChildren : TopicNode → List (String × TopicNode) → TopicNode
  | .mk s w _ r, c => .mk s w c r

def TopicNode.withRules : TopicNode → List Rule → TopicNode
  | .mk s w c _, r => .mk s w c r

/-- Go `node.children[segment]` read. -/
def lookupChild : List (String × TopicNode) → String → Option TopicNode
  | [], _ => none
  | (k, v) :: t, key => if k = key then some v else lookupChild t key

/-- Go `node.children[segment] = next` write: replace the first binding of
the key, or append a fresh binding. -/
def setChild : List (String × TopicNode) → String → TopicNode → List (String × TopicNode)
  | [], key, c => [(key, c)]
  | (k, v) :: t, key, c => if k = key then (key, c) :: t else (k, v) :: setChild t key c

/-- Loop body of `TopicTree.AddRule`: walk the pattern segments, validating
wildcards, creating nodes as needed, appending the rule at the last segment.
On a validation error the Go code returns mid-walk, leaving the nodes created
for earlier segments in place; the returned tree reflects that. -/
def insertRule (node : TopicNode) (segs : List String) (rule : Rule) :
    TopicNode × Option String :=
  match segs with
  | [] => (node, none)
  | seg :: rest =>
    if seg = "#" ∧ rest ≠ [] then
      (node, some ("multi-level wildcard (#) must be the last segment"))
    else if hasChar seg '+' ∧ seg ≠ "+" then
      (node, some ("single-level wildcard (+) must be the entire segment"))
    else
      let child :=
        match lookupChild node.children seg with
        | some c => c
        | none => TopicNode.mk seg (seg = "+" || seg = "#") [] []
      if rest = [] then
        (node.withChildren (setChild node.children seg
            (child.withRules (child.rules ++ [rule]))), none)
      else
        let res := insertRule child rest rule
        (node.withChildren (setChild node.children seg res.1), res.2)

/-- `TopicTree.AddRule`: nil-rule / empty-topic guard, then the insert walk.
The Go guard tests `rule.Topic == ""` on the string; the empty string splits
to `[""]`. -/
def TopicTree.AddRule (root : TopicNode) (rule? : Option Rule) :
    TopicNode × Option String :=
  match rule? with
  | none => (root, some ("invalid rule or empty topic"))
  | some r =>
    if r.topic = [""] then (root, some ("invalid rule or empty topic"))
    else insertRule root r.topic r

/-- Recursive matcher of `TopicTree.findMatches`: at the end of the topic
collect the node's rules; otherwise try the exact child, the `+` child, and
emit the `#` child's rules (one or more remaining segments). -/
def findMatches (node : TopicNode) : List String → List Rule
  | [] => node.rules
  | seg :: rest =>
    (match lookupChild node.children seg with
     | some c => findMatches c rest
     | none => []) ++
    (match lookupChild node.children ("+") with
     | some c => findMatches c rest
     | none => []) ++
    (match lookupChild node.children ("#") with
     | some c => c.rules
     | none => [])

/-- `TopicTree.FindMatches`: the Go code returns nil for the empty topic
string before splitting; the empty string splits to `[""]`. -/
def TopicTree.FindMatches (root : TopicNode) (topic : List String) : List Rule :=
  if topic = [""] then [] else findMatches root topic

/-! ## Rule index (`internal/rule/index.go`) -/

/-- Go `strings.Contains(topic, "+") || strings.Contains(topic, "#")`,
expressed on the segment list (the separator `/` is neither wildcard). -/
def containsWildcard (topic : List String) : Bool :=
  topic.any (fun s => hasChar s '+' || hasChar s '#')

/-- Go map read `idx.exactMatches[topic]` (missing key: empty bucket). -/
def bucketLookup : List (List String × List Rule) → List String → List Rule
  | [], _ => []
  | (k, rs) :: t, key => if k = key then rs else bucketLookup t key

/-- Go `idx.exactMatches[topic] = append(idx.exactMatches[topic], rule)`. -/
def bucketAppend : List (List String × List Rule) → List String → Rule →
    List (List String × List Rule)
  | [], key, r => [(key, [r])]
  | (k, rs) :: t, key, r =>
    if k = key then (k, rs ++ [r]) :: t else (k, rs) :: bucketAppend t key r

/-- `RuleIndex` from `index.go`: exact-match map plus wildcard trie.  The
statistics, logger and metrics fields are not modelled (no claim reads
them). -/
structure RuleIndex : Type where
  exactMatches : List (List String × List Rule)
  wildcardTree : TopicNode

/-- `NewRuleIndex`: empty map, tree with a bare root. -/
def RuleIndex.empty : RuleIndex :=
  ⟨[], TopicNode.mk ("") false [] []⟩

/-- `RuleIndex.Add`: nil check, then the wildcard trie or the exact map. -/
def RuleIndex.add (idx : RuleIndex) (rule? : Option Rule) :
    RuleIndex × Option String :=
  match rule? with
  | none => (idx, some ("rule cannot be nil"))
  | some r =>
    if containsWildcard r.topic then
      let res := TopicTree.AddRule idx.wildcardTree (some r)
      ({ idx with wildcardTree := res.1 }, res.2)
    else
      ({ idx with exactMatches := bucketAppend idx.exactMatches r.topic r }, none)

/-- `RuleIndex.Find`: exact matches first, then wildcard matches. -/
def RuleIndex.find (idx : RuleIndex) (topic : List String) : List Rule :=
  bucketLookup idx.exactMatches topic ++ TopicTree.FindMatches idx.wildcardTree topic

/-- Index built by installing a list of rules through `RuleIndex.add`
(`Processor.LoadRules` / repeated `Add`). -/
def buildIndex (rules : List Rule) : RuleIndex :=
  rules.foldl (fun idx r => (idx.add (some r)).1) RuleIndex.empty

/-! ## Specification-side pattern matching (section 4.1 of the spec)

These two definitions follow the words of the spec, for the refinement
claims comparing `RuleIndex.find` with the declared wildcard semantics. -/

/-- Wildcard matching per spec section 4.1: `+` matches exactly one segment,
a final `#` matches one or more trailing segments, any other segment matches
literally. -/
def specMatch : List String → List String → Bool
  | [], topic => topic.isEmpty
  | p :: ps, topic =>
    if p = "#" ∧ ps = [] then !topic.isEmpty
    else
      match topic with
      | [] => false
      | s :: ts => (p == "+" || p == s) && specMatch ps ts

/-- Well-placed wildcards per spec section 4.1: a segment containing `#`
must be exactly `#` and final; a segment containing `+` must be exactly
`+`. -/
def specValid : List String → Bool
  | [] => true
  | [s] =>
    if (hasChar s '#' ∧ s ≠ "#") ∨ (hasChar s '+' ∧ s ≠ "+") then false else true
  | s :: rest =>
    if hasChar s '#' ∨ (hasChar s '+' ∧ s ≠ "+") then false else specValid rest

/-- The validation actually performed by `TopicTree.AddRule`: a segment that
is exactly `#` must be last, and a segment containing `+` must be exactly
`+`.  (A `#` inside a longer segment is accepted.) -/
def codeValid : List String → Bool
  | [] => true
  | [s] => if hasChar s '+' ∧ s ≠ "+" then false else true
  | s :: rest =>
    if s = "#" then false
    else if hasChar s '+' ∧ s ≠ "+" then false
    else codeValid rest

/-- Whether `RuleIndex.add` succeeds on this rule (proved equivalent to the
success of `add` below). -/
def addOk (r : Rule) : Bool :=
  !containsWildcard r.topic || codeValid r.topic

/-- Rules stored in the trie at exactly the child path `q`. -/
def rulesAt (node : TopicNode) : List String → List Rule
  | [] => node.rules
  | k :: p =>
    match lookupChild node.children k with
    | some c => rulesAt c p
    | none => []

/-- All trie paths that `findMatches` can collect rules from for a given
topic: at each segment the literal child or the `+` child, or a terminating
`#` child. -/
def matchingPaths : List String → List (List String)
  | [] => [[]]
  | s :: rest =>
    ((matchingPaths rest).map (s :: ·)) ++
    ((matchingPaths rest).map (("+") :: ·)) ++ [["#"]]

/-- A rule the wildcard tree of a built index stores at path `q`: a wildcard
pattern, accepted by validation, equal to `q`. -/
def treePred (q : List String) (r : Rule) : Bool :=
  containsWildcard r.topic && codeValid r.topic && decide (r.topic = q)

/-- A rule the exact-match map of a built index stores under key `T`. -/
def exactPred (T : List String) (r : Rule) : Bool :=
  !containsWildcard r.topic && decide (r.topic = T)

/-! ## Value-to-string conversion and JSON encoding -/

mutual

/-- Deterministic JSON encoding, modelling Go `json.Marshal` on decoded
values.  The association lists stand for Go maps whose keys `json.Marshal`
emits in sorted order; string escaping is not modelled (no claim evaluates
the encoder on strings needing escapes). -/
def jsonEncode : JsonValue → String
  | .null => "null"
  | .bool true => "true"
  | .bool false => "false"
  | .num n => toString n
  | .str s => "\"" ++ s ++ "\""
  | .obj fields => "\x7b" ++ String.intercalate (",") (jsonEncodeFields fields) ++ "\x7d"

def jsonEncodeFields : List (String × JsonValue) → List String
  | [] => []
  | (k, v) :: t => ("\"" ++ k ++ "\":" ++ jsonEncode v) :: jsonEncodeFields t

end

/-! ## Dotted-path resolution (`getValueFromPath`, both revisions carry an
identical copy in `processor.go` and after the separator in
`validator_test.go`) -/

/-- Loop of `getValueFromPath`: `current` starts at the whole map and each
path segment must key into a map.  Go distinguishes `map[string]interface{}`
from `map[interface{}]interface{}` but treats them identically; the model
has one map form. -/
def walkPath : JsonValue → List String → Except String JsonValue
  | current, [] => .ok current
  | .obj m, key :: rest =>
    (match lookupVal m key with
     | some v => walkPath v rest
     | none => .error ("key not found: " ++ key))
  | _, key :: _ => .error ("invalid path: " ++ key ++ " is not a map")

/-- `Processor.getValueFromPath`: walk the dotted path through nested maps. -/
def getValueFromPath (data : ValueMap) (path : List String) : Except String JsonValue :=
  walkPath (.obj data) path

/-! ## Template scanning (both revisions use the regex
`\$\x7b([^\x7d]+)\x7d` and then `strings.Replace` each match) -/

/-- Find the first `\x7d` in the characters following a literal `$\x7b`:
the (possibly empty) body before it and the characters after it. -/
def splitAtBrace : List Char → Option (List Char × List Char)
  | [] => none
  | c :: t =>
    if c = '}' then some ([], t)
    else
      match splitAtBrace t with
      | some (b, r) => some (c :: b, r)
      | none => none

/-- Fuelled scanner for the placeholder regex: collect, left to right and
non-overlapping, every `$\x7b body \x7d` with non-empty brace-free body.  On
a `$\x7b` with an empty body the engine restarts one character later, and no
match can begin at the `\x7b`, so scanning continues at `rest`; when no
closing brace remains at all the regex has no further match.  Each step
consumes at least one character, so `length` fuel always suffices. -/
def scanVarsFuel : Nat → List Char → List String
  | 0, _ => []
  | _ + 1, [] => []
  | fuel + 1, '$' :: '{' :: rest =>
    (match splitAtBrace rest with
     | some (body, tail) =>
       if body = [] then scanVarsFuel fuel rest
       else String.mk body :: scanVarsFuel fuel tail
     | none => [])
  | fuel + 1, _ :: rest => scanVarsFuel fuel rest

/-- All placeholder variable names of a template, in match order
(`re.FindAllStringSubmatch(template, -1)`). -/
def scanVars (l : List Char) : List String :=
  scanVarsFuel l.length l

/-! ## Revision A: the processor at the top of `internal/rule/processor.go`
(pool-based; dotted-path rendering; unresolved placeholders are skipped) -/

namespace V1

/-- `convertToString` of the `processor.go` revision.  `strconv.FormatFloat
(v, 'f', -1, 64)` prints an integer-valued float64 as its plain decimal
integer form, which is `toString` on the `Int` model; the unreachable Go
`case int` coincides. -/
def convertToString : JsonValue → String
  | .str s => s
  | .num n => toString n
  | .bool true => "true"
  | .bool false => "false"
  | .null => "null"
  | .obj fields => jsonEncode (.obj fields)

/-- Substitution loop of the revision-A `processTemplate`: for each scanned
variable, split it on `.` and resolve through `getValueFromPath`; a
resolution failure merely skips the placeholder (it stays in the output),
a success replaces every occurrence. -/
def substPaths (data : ValueMap) : List String → String → String
  | [], result => result
  | v :: rest, result =>
    match getValueFromPath data (splitOnChar '.' v) with
    | .error _ => substPaths data rest result
    | .ok val =>
      substPaths data rest
        (result.replace ("$\x7b" ++ v ++ "\x7d") (convertToString val))

/-- Revision-A `processTemplate` (lines 163-200 of `processor.go`): never
returns an error. -/
def processTemplate (template : String) (data : ValueMap) : Except String String :=
  .ok (substPaths data (scanVars template.toList) template)

/-- Go `strings.Contains(s, "$\x7b")`. -/
def hasTemplateVar : List Char → Bool
  | '$' :: '{' :: _ => true
  | _ :: rest => hasTemplateVar rest
  | [] => false

/-- Revision-A `processActionTemplate`: fresh action with only topic and
payload copied (the other fields of the literal `&Action` are zero). -/
def processActionTemplate (action : Action) (msg : ValueMap) : Except String Action :=
  match (if hasTemplateVar action.topic.toList
         then processTemplate action.topic msg
         else .ok action.topic) with
  | .error e => .error ("failed to process topic template: " ++ e)
  | .ok topic =>
    match processTemplate action.payload msg with
    | .error e => .error ("failed to process payload template: " ++ e)
    | .ok payload => .ok ⟨topic, "", payload, 0, false⟩

end V1

/-! ## Condition evaluation

The evaluator implementation (`evaluateConditions`, `evaluateCondition`,
`compareNumeric`) is not among the repository sources — only its tests
(`evaluator_test.go`, `types_test.go`) and its callers are.  The definitions
below are modelled from the spec. -/

/-- Modelled from the spec: numeric coercion (spec 4.2 comparison rule 1,
"integer, float, numeric string").  The `Int` value model restricts numerics
to integers. -/
def asNum : JsonValue → Option Int
  | .num n => some n
  | .str s => s.toInt?
  | _ => none

/-- Modelled from the spec: string coercion for `contains` and stringified
equality ("string coercions of both sides"); strings pass through, other
values use their canonical JSON form. -/
def coerceToString : JsonValue → String
  | .str s => s
  | v => jsonEncode v

/-- Substring test on character lists (Go `strings.Contains`). -/
def containsSubstr : List Char → List Char → Bool
  | hay, needle =>
    if needle.isPrefixOf hay then true
    else
      match hay with
      | [] => false
      | _ :: t => containsSubstr t needle

/-- Modelled from the spec: equality comparison with the 4.2 coercion
priority — numeric if both coerce to numbers, then string, then boolean,
else stringified equality. -/
def compareEq (a b : JsonValue) : Bool :=
  match asNum a, asNum b with
  | some x, some y => x == y
  | _, _ =>
    match a, b with
    | .str x, .str y => x == y
    | .bool x, .bool y => x == y
    | _, _ => coerceToString a == coerceToString b

/-- Modelled from the spec: ordered comparison (`gt`, `lt`, `gte`, `lte`)
with the 4.2 coercion priority; incomparable operands yield FALSE. -/
def compareOrd (op : String) (a b : JsonValue) : Bool :=
  match asNum a, asNum b with
  | some x, some y =>
    (match op with
     | "gt" => x > y
     | "lt" => x < y
     | "gte" => x ≥ y
     | "lte" => x ≤ y
     | _ => false)
  | _, _ =>
    match a, b with
    | .str x, .str y =>
      (match op with
       | "gt" => decide (y < x)
       | "lt" => decide (x < y)
       | "gte" => decide (¬x < y)
       | "lte" => decide (¬y < x)
       | _ => false)
    | .bool x, .bool y =>
      (match op with
       | "gt" => x && !y
       | "lt" => !x && y
       | "gte" => x || !y
       | "lte" => !x || y
       | _ => false)
    | _, _ => false

/-- Modelled from the spec: leaf-condition evaluation (spec 4.2).  The field
is a dotted path resolved by the repository's `getValueFromPath`; an absent
field makes `exists` FALSE and `neq` TRUE and every other operator FALSE.
Regular-expression evaluation (`matches`) is outside the embedding and no
claim depends on it; an unrecognized operator yields FALSE (per the
`evaluator_test.go` expectations). -/
def evaluateCondition (c : Condition) (values : ValueMap) : Bool :=
  match getValueFromPath values (splitOnChar '.' c.field) with
  | .error _ => c.operator == "neq"
  | .ok v =>
    match c.operator with
    | "exists" => true
    | "eq" => compareEq v c.value
    | "neq" => !compareEq v c.value
    | "gt" => compareOrd c.operator v c.value
    | "lt" => compareOrd c.operator v c.value
    | "gte" => compareOrd c.operator v c.value
    | "lte" => compareOrd c.operator v c.value
    | "contains" =>
      containsSubstr (coerceToString v).toList (coerceToString c.value).toList
    | _ => false

mutual

/-- Modelled from the spec: group evaluation (spec 4.2 recursive contract) —
a group with no items and no groups is TRUE; otherwise the sub-results (one
per leaf item, then one per nested group) are combined by the operator, AND
requiring all and OR requiring some; an operator other than `and`/`or`
yields FALSE (per `evaluator_test.go`). -/
def evaluateConditionsC : Conditions → ValueMap → Bool
  | .mk op items groups, v =>
    if items.isEmpty && groups.isEmpty then true
    else
      match op with
      | "and" => items.all (fun c => evaluateCondition c v) && allGroups groups v
      | "or" => items.any (fun c => evaluateCondition c v) || anyGroups groups v
      | _ => false

/-- Conjunction of the nested groups' results. -/
def allGroups : List Conditions → ValueMap → Bool
  | [], _ => true
  | g :: t, v => evaluateConditionsC g v && allGroups t v

/-- Disjunction of the nested groups' results. -/
def anyGroups : List Conditions → ValueMap → Bool
  | [], _ => false
  | g :: t, v => evaluateConditionsC g v || anyGroups t v

end

/-- Modelled from the spec: `evaluateConditions` on a possibly-nil
conditions pointer — nil conditions are TRUE (spec 4.2 "If conds is absent
... TRUE"; `nil conditions` test case). -/
def evaluateConditions (conds : Option Conditions) (values : ValueMap) : Bool :=
  match conds with
  | none => true
  | some c => evaluateConditionsC c values

/-! ## Shared processor plumbing -/

/-- The three `uint64` counters of `ProcessorStats` (identical in both
revisions). -/
structure ProcessorStats : Type where
  processed : Nat
  matched : Nat
  errors : Nat

/-- Result of attempting `json.Unmarshal` of the raw payload bytes into a
string-keyed map.  The bytes themselves are opaque to the core, so a payload
is modelled by its parse outcome: `invalid` covers malformed JSON and JSON
that is not an object, `empty` is a zero-length byte slice (which also fails
to unmarshal), `obj m` is a JSON object decoding to `m`. -/
inductive Payload : Type where
  | empty
  | invalid
  | obj (m : ValueMap)

/-- Go `len(msg.Payload) > 0` is false exactly on `empty`. -/
def Payload.isEmptyB : Payload → Bool
  | .empty => true
  | _ => false

/-- `json.Unmarshal` outcome of a payload. -/
def parsePayload : Payload → Option ValueMap
  | .obj m => some m
  | _ => none

namespace V1

/-- Revision-A `Processor`: rule index plus counters (pools, worker pool and
logger are not modelled; `Process` is the synchronous path). -/
structure Processor : Type where
  index : RuleIndex
  stats : ProcessorStats

/-- Rule loop of revision-A `Process`: conditions nil-or-true gates the
render; a render error is logged and skipped. -/
def applyRules (values : ValueMap) : List Rule → List Action → List Action
  | [], acc => acc
  | r :: rest, acc =>
    if evaluateConditions r.conditions values then
      match processActionTemplate r.action values with
      | .ok a => applyRules values rest (acc ++ [a])
      | .error _ => applyRules values rest acc
    else applyRules values rest acc

/-- Revision-A `Processor.Process` (lines 86-133 of `processor.go`): find
matching rules (returning immediately, with no counter change, when none
match), unmarshal the payload (counting an error), run the rule loop, then
bump `processed` and — when at least one action was produced — `matched`. -/
def Processor.process (p : Processor) (topic : List String) (payload : Payload) :
    Processor × Except String (List Action) :=
  let rules := p.index.find topic
  if rules.isEmpty then (p, .ok [])
  else
    match parsePayload payload with
    | none =>
      ({ p with stats := { p.stats with errors := p.stats.errors + 1 } },
       .error ("failed to unmarshal message"))
    | some values =>
      let actions := applyRules values rules []
      ({ p with stats :=
          { processed := p.stats.processed + 1
            matched := p.stats.matched + (if actions.isEmpty then 0 else 1)
            errors := p.stats.errors } },
       .ok actions)

end V1

/-! ## Revision B: the processor embedded after the separator in
`internal/rule/evaluator_test.go` — the revision `cmd/mqtt-mux-router/main.go`
constructs and the one matching `types.go`, `index.go` and `topic_tree.go`. -/

namespace V2

/-- `convertValueToString` of the current revision: note `nil` renders as
the empty string.  `float64(int64(v)) == v` holds for the integer-valued
floats of the model, so a number prints as `%d` of its integer.  The default
branch JSON-marshals (the quote-stripping step is a no-op on maps). -/
def convertValueToString : JsonValue → String
  | .str s => s
  | .null => ""
  | .bool true => "true"
  | .bool false => "false"
  | .num n => toString n
  | .obj fields => jsonEncode (.obj fields)

/-- Substitution loop of the current `processTemplate`: each variable is a
single lookup of the whole (possibly dotted) name; a missing variable is a
hard error for topic templates and becomes the empty string for payload
templates. -/
def substVars (values : ValueMap) (isTopicTemplate : Bool) :
    List String → String → Except String String
  | [], result => .ok result
  | v :: rest, result =>
    match lookupVal values v with
    | some val =>
      substVars values isTopicTemplate rest
        (result.replace ("$\x7b" ++ v ++ "\x7d") (convertValueToString val))
    | none =>
      if isTopicTemplate then
        .error ("required template variable " ++ v ++ " not found")
      else
        substVars values isTopicTemplate rest
          (result.replace ("$\x7b" ++ v ++ "\x7d") (""))

/-- Current `processTemplate` (lines 545-596 after the separator in
`evaluator_test.go`). -/
def processTemplate (template : String) (values : ValueMap)
    (isTopicTemplate : Bool) : Except String String :=
  if template = "" then .ok ("")
  else substVars values isTopicTemplate (scanVars template.toList) template

/-- Current `processActionTemplate`: topic variables are required, payload
variables optional; an empty payload template is left empty. -/
def processActionTemplate (action : Action) (values : ValueMap) :
    Except String Action :=
  match processTemplate action.topic values true with
  | .error e => .error ("failed to process topic template: " ++ e)
  | .ok topic =>
    if action.payload = "" then
      .ok ⟨topic, action.targetBroker, "", action.qos, action.retain⟩
    else
      match processTemplate action.payload values false with
      | .error e => .error ("failed to process payload template: " ++ e)
      | .ok payload =>
        .ok ⟨topic, action.targetBroker, payload, action.qos, action.retain⟩

/-- `ProcessedMessage` from `types.go` (timestamp and headers dropped;
`values` is `none` for a nil map). -/
structure ProcessedMessage : Type where
  topic : List String
  sourceBroker : String
  payload : Payload
  values : Option ValueMap

/-- `MatchResult` from `types.go` (headers dropped; the Go field name
`Variables` is a Lean keyword, hence `vars`). -/
structure MatchResult : Type where
  rule : Rule
  action : Action
  vars : ValueMap

/-- State threaded through the rule loop of `Process`: accumulated results,
the `lastErr` variable, and the `matched` / `errors` counters. -/
structure LoopState : Type where
  results : List MatchResult
  lastErr : Option String
  matched : Nat
  errors : Nat

/-- Rule loop of the current `Process`: skip disabled rules, skip
source-broker mismatches, skip failed conditions; a render error increments
`errors`, records `lastErr` and skips the rule; a render success appends a
`MatchResult` and increments `matched`. -/
def ruleLoop (values : ValueMap) (sourceBroker : String) :
    List Rule → LoopState → LoopState
  | [], st => st
  | r :: rest, st =>
    if ¬r.enabled then ruleLoop values sourceBroker rest st
    else if r.sourceBroker ≠ "" ∧ r.sourceBroker ≠ sourceBroker then
      ruleLoop values sourceBroker rest st
    else if ¬evaluateConditions r.conditions values then
      ruleLoop values sourceBroker rest st
    else
      match processActionTemplate r.action values with
      | .error e =>
        ruleLoop values sourceBroker rest
          { st with errors := st.errors + 1, lastErr := some e }
      | .ok action =>
        ruleLoop values sourceBroker rest
          { st with results := st.results ++ [⟨r, action, values⟩],
                    matched := st.matched + 1 }

/-- Current `Processor`: index plus counters (worker pool and metrics not
modelled; `process` is the synchronous path). -/
structure Processor : Type where
  index : RuleIndex
  stats : ProcessorStats

/-- Value-map resolution step of the current `Process` (`msg.Values`
nil-check and the conditional `json.Unmarshal` of lines 412-426): the
message's map, or the payload's parse when the map is empty and a payload
is present. -/
def resolveValues (msg : ProcessedMessage) : Except String ValueMap :=
  let values0 := msg.values.getD []
  if msg.payload.isEmptyB = false ∧ values0.isEmpty then
    match parsePayload msg.payload with
    | some m => .ok m
    | none => .error ("failed to unmarshal payload")
  else .ok values0

/-- Matching-and-rendering phase of the current `Process` (lines 428-484):
the no-match early return, the rule loop, and the `lastErr` return rule —
an error is surfaced only when no result was produced.  `processed` was
incremented up front in the Go code; it is accounted for at each exit
here. -/
def Processor.processCore (p : Processor) (msg : ProcessedMessage)
    (values : ValueMap) : Processor × Except String (List MatchResult) :=
  let rules := p.index.find msg.topic
  if rules.isEmpty then
    ({ p with stats := { p.stats with processed := p.stats.processed + 1 } },
     .ok [])
  else
    let st := ruleLoop values msg.sourceBroker rules
      ⟨[], none, p.stats.matched, p.stats.errors⟩
    let p2 : Processor := { p with stats :=
      { processed := p.stats.processed + 1, matched := st.matched,
        errors := st.errors } }
    if st.results.isEmpty then
      match st.lastErr with
      | some e => (p2, .error e)
      | none => (p2, .ok [])
    else (p2, .ok st.results)

/-- Current `Processor.Process` (lines 401-485 after the separator in
`evaluator_test.go`): nil and empty-topic guards, value-map resolution
(counting an unmarshal failure in `errors`), then the matching phase. -/
def Processor.process (p : Processor) (msg? : Option ProcessedMessage) :
    Processor × Except String (List MatchResult) :=
  match msg? with
  | none => (p, .error ("message is nil"))
  | some msg =>
    if msg.topic = [""] then (p, .error ("message topic is empty"))
    else
      match resolveValues msg with
      | .error e =>
        ({ p with stats :=
            { processed := p.stats.processed + 1, matched := p.stats.matched,
              errors := p.stats.errors + 1 } },
         .error e)
      | .ok values => p.processCore msg values

end V2

/-! ## NATS subject translation (`nats` section of
`internal/broker/subscription_test.go`) -/

/-- Pointwise image of one single-character `strings.ReplaceAll`. -/
def natsChar (a b : Char) (c : Char) : Char := if c = a then b else c

/-- `ToNATSSubject`: `+` to `*`, then `#` to `>`, then `/` to `.`; Go
strings are modelled as character lists, over which the single-character
replacements act pointwise. -/
def ToNATSSubject (mqttTopic : List Char) : List Char :=
  ((mqttTopic.map (natsChar '+' '*')).map (natsChar '#' '>')).map (natsChar '/' '.')

/-- `ToMQTTTopic`: `*` to `+`, then `>` to `#`, then `.` to `/`. -/
def ToMQTTTopic (natsSubject : List Char) : List Char :=
  ((natsSubject.map (natsChar '*' '+')).map (natsChar '>' '#')).map (natsChar '.' '/')

/-! ## Vocabulary for the processor theorems -/

namespace V2

/-- A rule participates in the current `Process` loop iff it is enabled, its
source-broker filter accepts the message, and its conditions pass. -/
def eligible (values : ValueMap) (sourceBroker : String) (r : Rule) : Bool :=
  r.enabled && (r.sourceBroker == "" || r.sourceBroker == sourceBroker) &&
    evaluateConditions r.conditions values

/-- The match result one rule contributes: `some` on a successful render,
`none` when rendering fails. -/
def renderResult (values : ValueMap) (r : Rule) : Option MatchResult :=
  match processActionTemplate r.action values with
  | .ok a => some ⟨r, a, values⟩
  | .error _ => none

/-- The value map the `Process` rule loop runs with: the message's map, or
the payload's parse when the map is empty and a payload is present (`none`
when that parse fails). -/
def effectiveValues (msg : ProcessedMessage) : Option ValueMap :=
  (resolveValues msg).toOption

/-- Results contributed by a rule list, in order. -/
def loopResults (values : ValueMap) (sourceBroker : String) (rules : List Rule) :
    List MatchResult :=
  rules.filterMap
    (fun r => if eligible values sourceBroker r then renderResult values r else none)

/-- The rules whose action rendering fails (among the eligible ones). -/
def loopFailures (values : ValueMap) (sourceBroker : String) (rules : List Rule) :
    List Rule :=
  rules.filter
    (fun r => eligible values sourceBroker r && (renderResult values r).isNone)

end V2

/-! ## Concrete instances for witnesses and counterexamples -/

/-- Plain action without template variables. -/
def actPlain : Action := ⟨"out", "tb", "", 0, false⟩

/-- Second plain action. -/
def actPlain2 : Action := ⟨"out2", "tb", "", 0, false⟩

/-- Action whose topic template needs the unprovided variable `missing`. -/
def actMissingVar : Action := ⟨"x/$\x7bmissing\x7d", "tb", "", 0, false⟩

/-- Rule with the bare multi-level wildcard pattern `#`. -/
def ruleHashA : Rule := ⟨["#"], "", true, none, actPlain⟩

/-- Second rule with the bare `#` pattern. -/
def ruleHashB : Rule := ⟨["#"], "", true, none, actPlain2⟩

/-- Exact-match rule on `a/b`. -/
def ruleExactW : Rule := ⟨["a", "b"], "", true, none, actPlain⟩

/-- Wildcard rule on `a/+`. -/
def rulePlusW : Rule := ⟨["a", "+"], "", true, none, actPlain2⟩

/-- Rule whose pattern segment `a#b` embeds `#` in a longer segment. -/
def ruleEmbeddedHash : Rule := ⟨["a#b"], "", true, none, actPlain⟩

/-- Well-formed wildcard rule `s/+/t` for the add-succeeds witness. -/
def ruleSpecOkW : Rule := ⟨["s", "+", "t"], "", true, none, actPlain⟩

/-- Enabled rule on topic `t` with a plain action. -/
def ruleT1 : Rule := ⟨["t"], "", true, none, actPlain⟩

/-- Second enabled rule on topic `t` with a plain action. -/
def ruleT2 : Rule := ⟨["t"], "", true, none, actPlain2⟩

/-- Enabled rule on topic `t` whose action render fails. -/
def ruleTBad : Rule := ⟨["t"], "", true, none, actMissingVar⟩

/-- Current-revision processor with two rendering rules on topic `t`. -/
def procTwo : V2.Processor := ⟨buildIndex [ruleT1, ruleT2], ⟨0, 0, 0⟩⟩

/-- Current-revision processor with one failing and one rendering rule. -/
def procMixed : V2.Processor := ⟨buildIndex [ruleTBad, ruleT1], ⟨0, 0, 0⟩⟩

/-- Message on topic `t` carrying an already-parsed value map. -/
def msgT : V2.ProcessedMessage := ⟨["t"], "", .empty, some [("x", .num 1)]⟩

/-- Expected results of `procTwo` processing `msgT`: both plain actions. -/
def resultsTwo : List V2.MatchResult :=
  [⟨ruleT1, actPlain, [("x", .num 1)]⟩, ⟨ruleT2, actPlain2, [("x", .num 1)]⟩]

/-- Legacy processor with an empty index. -/
def procV1Empty : V1.Processor := ⟨RuleIndex.empty, ⟨0, 0, 0⟩⟩

/-- Legacy processor with one rendering rule on topic `t`. -/
def procV1One : V1.Processor := ⟨buildIndex [ruleT1], ⟨0, 0, 0⟩⟩

/-! # Theorems

Helper lemmas first, then one theorem (with witness or counterexample) per
claim. -/

@[simp]
theorem TopicNode.children_mk (s w c r) : (TopicNode.mk s w c r).children = c := rfl

@[simp]
theorem TopicNode.rules_mk (s w c r) : (TopicNode.mk s w c r).rules = r := rfl

@[simp]
theorem TopicNode.children_withChildren (n : TopicNode) (c) :
    (n.withChildren c).children = c := by
  cases n; rfl

@[simp]
theorem TopicNode.rules_withChildren (n : TopicNode) (c) :
    (n.withChildren c).rules = n.rules := by
  cases n; rfl

@[simp]
theorem TopicNode.children_withRules (n : TopicNode) (r) :
    (n.withRules r).children = n.children := by
  cases n; rfl

@[simp]
theorem TopicNode.rules_withRules (n : TopicNode) (r) :
    (n.withRules r).rules = r := by
  cases n; rfl

theorem lookupChild_setChild_self (l : List (String × TopicNode)) (key : String)
    (c : TopicNode) : lookupChild (setChild l key c) key = some c := by
  induction l with
  | nil => simp [setChild, lookupChild]
  | cons h t ih =>
    obtain ⟨k, v⟩ := h
    by_cases hk : k = key
    · simp [setChild, hk, lookupChild]
    · simp [setChild, hk, lookupChild, ih]

theorem lookupChild_setChild_ne (l : List (String × TopicNode)) (key k' : String)
    (c : TopicNode) (h : k' ≠ key) :
    lookupChild (setChild l key c) k' = lookupChild l k' := by
  have h' : key ≠ k' := Ne.symm h
  induction l with
  | nil => simp [setChild, lookupChild, h']
  | cons hd t ih =>
    obtain ⟨k, v⟩ := hd
    by_cases hk : k = key
    · subst hk
      simp [setChild, lookupChild, h']
    · simp [setChild, hk, lookupChild, ih]

theorem flatMap_nil_fun {α : Type} (L : List (List String)) :
    L.flatMap (fun _ => ([] : List α)) = [] := by
  induction L with
  | nil => rfl
  | cons h t ih => simp [List.flatMap_cons, ih]

/-- `findMatches` collects exactly the rules sitting at the matching trie
paths, in traversal order. -/
theorem findMatches_eq (segs : List String) (node : TopicNode) :
    findMatches node segs = (matchingPaths segs).flatMap (rulesAt node) := by
  induction segs generalizing node with
  | nil => simp [findMatches, matchingPaths, rulesAt]
  | cons s rest ih =>
    have hhash : (match lookupChild node.children ("#") with
        | some c => c.rules
        | none => []) = rulesAt node ["#"] := by
      cases hc : lookupChild node.children ("#") <;> simp [rulesAt, hc]
    have hlit : ∀ k : String, (match lookupChild node.children k with
        | some c => findMatches c rest
        | none => []) =
        (matchingPaths rest).flatMap (fun p => rulesAt node (k :: p)) := by
      intro k
      cases hc : lookupChild node.children k with
      | none => simp [rulesAt, hc, flatMap_nil_fun]
      | some c => simp [rulesAt, hc, ih]
    simp only [findMatches, matchingPaths, List.flatMap_append, List.flatMap_map,
      List.flatMap_cons, List.flatMap_nil, List.append_nil, hhash, hlit]

@[simp]
theorem rulesAt_leaf (s : String) (w : Bool) (p : List String) :
    rulesAt (TopicNode.mk s w [] []) p = [] := by
  cases p with
  | nil => rfl
  | cons k t => simp [rulesAt, lookupChild]

/-- Effect of a successful insert on the rules found at each path: the
inserted pattern's path gains the rule at the end, every other path is
untouched. -/
theorem rulesAt_insert (segs : List String) (node : TopicNode) (r : Rule)
    (hne : segs ≠ []) (hok : (insertRule node segs r).2 = none) (q : List String) :
    rulesAt (insertRule node segs r).1 q =
      if q = segs then rulesAt node q ++ [r] else rulesAt node q := by
  induction segs generalizing node q with
  | nil => exact absurd rfl hne
  | cons seg rest ih =>
    by_cases h1 : seg = "#" ∧ rest ≠ []
    · simp [insertRule, h1] at hok
    by_cases h2 : hasChar seg '+' ∧ seg ≠ "+"
    · simp [insertRule, h1, h2] at hok
    by_cases hr : rest = []
    · subst hr
      cases hc : lookupChild node.children seg with
      | some c =>
        simp only [insertRule, h1, h2, hc, if_false, if_true, ite_true, ite_false,
          reduceIte]
        cases q with
        | nil => simp [rulesAt]
        | cons k p =>
          by_cases hk : k = seg
          · subst hk
            cases p with
            | nil =>
              simp [rulesAt, lookupChild_setChild_self, hc]
            | cons x xs =>
              simp [rulesAt, lookupChild_setChild_self, hc]
          · simp [rulesAt, lookupChild_setChild_ne _ _ _ _ hk, hk]
      | none =>
        simp only [insertRule, h1, h2, hc, if_false, if_true, ite_true, ite_false,
          reduceIte]
        cases q with
        | nil => simp [rulesAt]
        | cons k p =>
          by_cases hk : k = seg
          · subst hk
            cases p with
            | nil =>
              simp [rulesAt, lookupChild_setChild_self, hc]
            | cons x xs =>
              simp [rulesAt, lookupChild_setChild_self, hc, lookupChild]
          · simp [rulesAt, lookupChild_setChild_ne _ _ _ _ hk, hk]
    · cases hc : lookupChild node.children seg with
      | some c =>
        simp only [insertRule, h1, h2, hc, hr, if_false, ite_false, reduceIte] at hok ⊢
        have ihc := fun q' => ih c hr hok q'
        cases q with
        | nil => simp [rulesAt]
        | cons k p =>
          by_cases hk : k = seg
          · subst hk
            by_cases hp : p = rest
            · subst hp
              simp [rulesAt, lookupChild_setChild_self, hc, ihc, hr]
            · simp [rulesAt, lookupChild_setChild_self, hc, ihc, hp]
          · simp [rulesAt, lookupChild_setChild_ne _ _ _ _ hk, hk]
      | none =>
        simp only [insertRule, h1, h2, hc, hr, if_false, ite_false, reduceIte] at hok ⊢
        have ihc := fun q' =>
          ih (TopicNode.mk seg (seg = "+" || seg = "#") [] []) hr hok q'
        cases q with
        | nil => simp [rulesAt]
        | cons k p =>
          by_cases hk : k = seg
          · subst hk
            by_cases hp : p = rest
            · subst hp
              simp [rulesAt, lookupChild_setChild_self, hc, ihc, hr]
            · simp [rulesAt, lookupChild_setChild_self, hc, ihc, hp]
          · simp [rulesAt, lookupChild_setChild_ne _ _ _ _ hk, hk]

/-- A failed insert changes no rule list: the walk may create fresh empty
nodes, but the rule is appended nowhere. -/
theorem rulesAt_insert_err (segs : List String) (node : TopicNode) (r : Rule) (e : String)
    (herr : (insertRule node segs r).2 = some e) (q : List String) :
    rulesAt (insertRule node segs r).1 q = rulesAt node q := by
  induction segs generalizing node q with
  | nil => simp [insertRule] at herr
  | cons seg rest ih =>
    by_cases h1 : seg = "#" ∧ rest ≠ []
    · simp [insertRule, h1]
    by_cases h2 : hasChar seg '+' ∧ seg ≠ "+"
    · simp [insertRule, h1, h2]
    by_cases hr : rest = []
    · subst hr
      simp [insertRule, h1, h2] at herr
    · cases hc : lookupChild node.children seg with
      | some c =>
        simp only [insertRule, h1, h2, hc, hr, if_false, ite_false, reduceIte] at herr ⊢
        have ihc := fun q' => ih c herr q'
        cases q with
        | nil => simp [rulesAt]
        | cons k p =>
          by_cases hk : k = seg
          · subst hk
            simp [rulesAt, lookupChild_setChild_self, hc, ihc]
          · simp [rulesAt, lookupChild_setChild_ne _ _ _ _ hk]
      | none =>
        simp only [insertRule, h1, h2, hc, hr, if_false, ite_false, reduceIte] at herr ⊢
        have ihc := fun q' =>
          ih (TopicNode.mk seg (seg = "+" || seg = "#") [] []) herr q'
        cases q with
        | nil => simp [rulesAt]
        | cons k p =>
          by_cases hk : k = seg
          · subst hk
            simp [rulesAt, lookupChild_setChild_self, hc, ihc]
          · simp [rulesAt, lookupChild_setChild_ne _ _ _ _ hk]

/-- The insert walk succeeds exactly on the patterns `TopicTree.AddRule`
considers valid. -/
theorem insert_ok_iff (segs : List String) (node : TopicNode) (r : Rule) :
    (insertRule node segs r).2 = none ↔ codeValid segs = true := by
  induction segs generalizing node with
  | nil => simp [insertRule, codeValid]
  | cons seg rest ih =>
    cases rest with
    | nil =>
      by_cases h2 : hasChar seg '+' ∧ seg ≠ "+"
      · simp [insertRule, h2, codeValid]
      · cases hc : lookupChild node.children seg <;>
          simp [insertRule, h2, codeValid, hc]
    | cons a b =>
      by_cases h1 : seg = "#"
      · subst h1
        simp [insertRule, codeValid]
      by_cases h2 : hasChar seg '+' ∧ seg ≠ "+"
      · simp [insertRule, h1, h2, codeValid]
      · have hcv : codeValid (seg :: a :: b) = codeValid (a :: b) := by
          simp [codeValid, h1, h2]
        cases hc : lookupChild node.children seg with
        | some c =>
          have hstep : (insertRule node (seg :: a :: b) r).2 =
              (insertRule c (a :: b) r).2 := by
            simp [insertRule, h1, h2, hc]
          rw [hstep, ih, hcv]
        | none =>
          have hstep : (insertRule node (seg :: a :: b) r).2 =
              (insertRule (TopicNode.mk seg (seg = "+" || seg = "#") [] [])
                (a :: b) r).2 := by
            simp [insertRule, h1, h2, hc]
          rw [hstep, ih, hcv]

theorem bucketLookup_append_self (m : List (List String × List Rule))
    (key : List String) (r : Rule) :
    bucketLookup (bucketAppend m key r) key = bucketLookup m key ++ [r] := by
  induction m with
  | nil => simp [bucketAppend, bucketLookup]
  | cons hd t ih =>
    obtain ⟨k, rs⟩ := hd
    by_cases hk : k = key
    · subst hk; simp [bucketAppend, bucketLookup]
    · simp [bucketAppend, bucketLookup, hk, ih]

theorem bucketLookup_append_ne (m : List (List String × List Rule))
    (key k' : List String) (r : Rule) (h : k' ≠ key) :
    bucketLookup (bucketAppend m key r) k' = bucketLookup m k' := by
  have h' : key ≠ k' := Ne.symm h
  induction m with
  | nil => simp [bucketAppend, bucketLookup, h']
  | cons hd t ih =>
    obtain ⟨k, rs⟩ := hd
    by_cases hk : k = key
    · subst hk; simp [bucketAppend, bucketLookup, h']
    · simp [bucketAppend, bucketLookup, hk, ih]

/-- One `add` step, seen through `rulesAt` on the wildcard tree. -/
theorem rulesAt_add (idx : RuleIndex) (r : Rule) (q : List String) :
    rulesAt ((idx.add (some r)).1).wildcardTree q =
      rulesAt idx.wildcardTree q ++
        (if containsWildcard r.topic = true ∧ codeValid r.topic = true ∧ r.topic = q
         then [r] else []) := by
  by_cases hw : containsWildcard r.topic = true
  · have hne2 : r.topic ≠ [""] := by
      intro h
      rw [h] at hw
      exact absurd hw (by decide)
    have hne : r.topic ≠ [] := by
      intro h
      rw [h] at hw
      exact absurd hw (by decide)
    by_cases hv : codeValid r.topic = true
    · have hok : (insertRule idx.wildcardTree r.topic r).2 = none :=
        (insert_ok_iff _ _ _).mpr hv
      have hins := rulesAt_insert r.topic idx.wildcardTree r hne hok q
      by_cases hq : q = r.topic
      · subst hq
        simp [RuleIndex.add, hw, TopicTree.AddRule, hne2, hins, hv]
      · have hq' : ¬r.topic = q := fun h => hq h.symm
        simp [RuleIndex.add, hw, TopicTree.AddRule, hne2, hins, hq, hq']
    · cases herr : (insertRule idx.wildcardTree r.topic r).2 with
      | none => exact absurd ((insert_ok_iff _ _ _).mp herr) hv
      | some e =>
        have hins := rulesAt_insert_err r.topic idx.wildcardTree r e herr q
        simp [RuleIndex.add, hw, TopicTree.AddRule, hne2, hins, hv]
  · simp [RuleIndex.add, hw]

/-- One `add` step, seen through the exact-match buckets. -/
theorem bucket_add (idx : RuleIndex) (r : Rule) (T : List String) :
    bucketLookup ((idx.add (some r)).1).exactMatches T =
      bucketLookup idx.exactMatches T ++
        (if containsWildcard r.topic = false ∧ r.topic = T then [r] else []) := by
  by_cases hw : containsWildcard r.topic = true
  · simp [RuleIndex.add, hw]
  · have hw' : containsWildcard r.topic = false := by
      cases h : containsWildcard r.topic
      · rfl
      · exact absurd h hw
    by_cases hT : r.topic = T
    · subst hT
      simp [RuleIndex.add, hw, hw', bucketLookup_append_self]
    · have hT' : ¬T = r.topic := fun h => hT h.symm
      simp [RuleIndex.add, hw, hw', hT, bucketLookup_append_ne _ _ _ _ hT']

theorem rulesAt_foldAdd (R : List Rule) (idx : RuleIndex) (q : List String) :
    rulesAt ((R.foldl (fun i r => (i.add (some r)).1) idx).wildcardTree) q =
      rulesAt idx.wildcardTree q ++ R.filter (treePred q) := by
  induction R generalizing idx with
  | nil => simp
  | cons r R ih =>
    simp only [List.foldl_cons, List.filter_cons]
    rw [ih, rulesAt_add]
    by_cases hcond : containsWildcard r.topic = true ∧ codeValid r.topic = true ∧
        r.topic = q
    · have hb : treePred q r = true := by
        simp only [treePred, Bool.and_eq_true, decide_eq_true_eq]
        exact ⟨⟨hcond.1, hcond.2.1⟩, hcond.2.2⟩
      rw [if_pos hcond]
      simp [hb, List.append_assoc]
    · have hb : ¬treePred q r = true := by
        simp only [treePred, Bool.and_eq_true, decide_eq_true_eq]
        intro h
        exact hcond ⟨h.1.1, h.1.2, h.2⟩
      rw [if_neg hcond]
      simp [hb]

/-- The wildcard tree of a built index holds, at each path, exactly the
wildcard-valid rules with that pattern, in installation order. -/
theorem rulesAt_buildIndex (R : List Rule) (q : List String) :
    rulesAt (buildIndex R).wildcardTree q = R.filter (treePred q) := by
  have h := rulesAt_foldAdd R RuleIndex.empty q
  simpa [buildIndex, RuleIndex.empty] using h

theorem bucket_foldAdd (R : List Rule) (idx : RuleIndex) (T : List String) :
    bucketLookup ((R.foldl (fun i r => (i.add (some r)).1) idx).exactMatches) T =
      bucketLookup idx.exactMatches T ++ R.filter (exactPred T) := by
  induction R generalizing idx with
  | nil => simp
  | cons r R ih =>
    simp only [List.foldl_cons, List.filter_cons]
    rw [ih, bucket_add]
    by_cases hcond : containsWildcard r.topic = false ∧ r.topic = T
    · have hb : exactPred T r = true := by
        simp only [exactPred, Bool.and_eq_true, decide_eq_true_eq, Bool.not_eq_true']
        exact ⟨hcond.1, hcond.2⟩
      rw [if_pos hcond]
      simp [hb, List.append_assoc]
    · have hb : ¬exactPred T r = true := by
        simp only [exactPred, Bool.and_eq_true, decide_eq_true_eq, Bool.not_eq_true']
        intro h
        exact hcond ⟨h.1, h.2⟩
      rw [if_neg hcond]
      simp [hb]

/-- The exact-match buckets of a built index hold, under each key, exactly
the wildcard-free rules with that topic, in installation order. -/
theorem bucket_buildIndex (R : List Rule) (T : List String) :
    bucketLookup (buildIndex R).exactMatches T = R.filter (exactPred T) := by
  have h := bucket_foldAdd R RuleIndex.empty T
  simpa [buildIndex, RuleIndex.empty, bucketLookup] using h

/-- `find` on a built index, decomposed into the exact bucket and the rules
at every matching trie path. -/
theorem find_buildIndex (R : List Rule) (T : List String) (hT : T ≠ [""]) :
    (buildIndex R).find T =
      R.filter (exactPred T) ++
        (matchingPaths T).flatMap (fun q => R.filter (treePred q)) := by
  have htree : rulesAt (buildIndex R).wildcardTree = fun q => R.filter (treePred q) :=
    funext (rulesAt_buildIndex R)
  rw [RuleIndex.find, TopicTree.FindMatches, if_neg hT, findMatches_eq, htree,
    bucket_buildIndex]

theorem specMatch_self : ∀ T : List String, (∀ s ∈ T, s ≠ "#") →
    specMatch T T = true := by
  intro T
  induction T with
  | nil => intro _; rfl
  | cons s rest ih =>
    intro hT
    have hs : s ≠ "#" := hT s (by simp)
    simp [specMatch, hs, ih (fun x hx => hT x (by simp [hx]))]

/-- A wildcard-free pattern matches exactly itself. -/
theorem literal_specMatch : ∀ (p : List String),
    (∀ s ∈ p, hasChar s '+' = false ∧ hasChar s '#' = false) →
    ∀ T, (specMatch p T = true ↔ p = T) := by
  intro p
  induction p with
  | nil =>
    intro _ T
    cases T <;> simp [specMatch]
  | cons s ps ih =>
    intro hp T
    have hs := hp s (by simp)
    have hs1 : s ≠ "#" := by
      intro h
      subst h
      revert hs
      decide
    have hs2 : s ≠ "+" := by
      intro h
      subst h
      revert hs
      decide
    have ihp := ih (fun x hx => hp x (by simp [hx]))
    cases T with
    | nil => simp [specMatch, hs1]
    | cons t ts =>
      simp [specMatch, hs1, hs2, ihp ts]

theorem mem_matchingPaths : ∀ (T q : List String),
    (∀ s ∈ T, s ≠ "+" ∧ s ≠ "#") → codeValid q = true →
    (q ∈ matchingPaths T ↔ specMatch q T = true) := by
  intro T
  induction T with
  | nil =>
    intro q _ _
    cases q with
    | nil => simp [matchingPaths, specMatch]
    | cons k p =>
      by_cases hk : k = "#" ∧ p = [] <;> simp [matchingPaths, specMatch, hk]
  | cons s rest ih =>
    intro q hT hq
    have hs := hT s (by simp)
    have hrest : ∀ x ∈ rest, x ≠ "+" ∧ x ≠ "#" := fun x hx => hT x (by simp [hx])
    cases q with
    | nil => simp [matchingPaths, specMatch]
    | cons k p =>
      by_cases hk : k = "#"
      · subst hk
        cases p with
        | nil => simp [matchingPaths, specMatch]
        | cons x xs => simp [codeValid] at hq
      · have hq' : codeValid p = true := by
          cases p with
          | nil => rfl
          | cons a b =>
            simp only [codeValid, if_neg hk] at hq
            split at hq
            · exact absurd hq (by simp)
            · exact hq
        have ihp := ih p hrest hq'
        have hspec : specMatch (k :: p) (s :: rest) =
            ((k == "+" || k == s) && specMatch p rest) := by
          simp only [specMatch]
          rw [if_neg (fun h => hk h.1)]
        rw [hspec]
        simp only [matchingPaths, List.mem_append, List.mem_map,
          List.mem_singleton, List.cons.injEq, Bool.or_eq_true,
          Bool.and_eq_true, beq_iff_eq]
        constructor
        · rintro ((⟨a, ha, hsk, hap⟩ | ⟨a, ha, hpk, hap⟩) | ⟨hk8, hp8⟩)
          · subst hap
            exact ⟨Or.inr hsk.symm, ihp.mp ha⟩
          · subst hap
            exact ⟨Or.inl hpk.symm, ihp.mp ha⟩
          · exact absurd hk8 hk
        · rintro ⟨hor, hm⟩
          have hpM : p ∈ matchingPaths rest := ihp.mpr hm
          cases hor with
          | inl h => exact Or.inl (Or.inr ⟨p, hpM, h.symm, rfl⟩)
          | inr h => exact Or.inl (Or.inl ⟨p, hpM, h.symm, rfl⟩)

theorem matchingPaths_nodup : ∀ T : List String,
    (∀ s ∈ T, s ≠ "+" ∧ s ≠ "#") → (matchingPaths T).Nodup := by
  intro T
  induction T with
  | nil => intro _; simp [matchingPaths]
  | cons s rest ih =>
    intro hT
    have hs := hT s (by simp)
    have hM := ih (fun x hx => hT x (by simp [hx]))
    have hinj : ∀ a : String, Function.Injective (a :: · : List String → List String) :=
      fun a x y h => (List.cons.injEq _ _ _ _ ▸ h).2
    simp only [matchingPaths]
    rw [List.nodup_append, List.nodup_append]
    refine ⟨⟨hM.map (hinj s), hM.map (hinj "+"), ?dAB⟩, by simp, ?dC⟩
    case dAB =>
      intro x hx hx'
      simp only [List.mem_map] at hx hx'
      obtain ⟨a, _, rfl⟩ := hx
      obtain ⟨b, _, hb⟩ := hx'
      exact hs.1 ((List.cons.injEq _ _ _ _ ▸ hb).1.symm)
    case dC =>
      intro x hx hx'
      simp only [List.mem_append, List.mem_map] at hx
      simp only [List.mem_singleton] at hx'
      subst hx'
      rcases hx with ⟨a, _, ha⟩ | ⟨a, _, ha⟩
      · exact hs.2 (List.cons.injEq _ _ _ _ ▸ ha).1
      · exact absurd (List.cons.injEq _ _ _ _ ▸ ha).1 (by decide)

/-- Segments of a wildcard-free topic contain neither wildcard character. -/
theorem wildcardFree_segments (topic : List String)
    (hw : containsWildcard topic = false) :
    ∀ s ∈ topic, hasChar s '+' = false ∧ hasChar s '#' = false := by
  intro s hsm
  rw [containsWildcard, List.any_eq_false] at hw
  have h := hw s hsm
  constructor
  · cases h1 : hasChar s '+'
    · rfl
    · exact absurd (by simp [h1]) h
  · cases h1 : hasChar s '#'
    · rfl
    · exact absurd (by simp [h1]) h

/-- C1, amended to non-empty topics: for a topic other than the empty
string whose segments are not themselves wildcards, `find` on an index
holding the successfully installed, pairwise-distinct rules `R` returns
exactly the rules whose patterns match the topic under the spec-4.1
wildcard semantics, without duplicates. -/
theorem find_returns_exact_matches (R : List Rule) (T : List String)
    (hinst : ∀ r ∈ R, addOk r = true)
    (hnd : R.Nodup)
    (hT0 : T ≠ [""])
    (hT : ∀ s ∈ T, s ≠ "+" ∧ s ≠ "#") :
    (∀ r, r ∈ (buildIndex R).find T ↔ (r ∈ R ∧ specMatch r.topic T = true)) ∧
    ((buildIndex R).find T).Nodup := by
  rw [find_buildIndex R T hT0]
  constructor
  · intro r
    simp only [List.mem_append, List.mem_flatMap, List.mem_filter]
    constructor
    · rintro (⟨hrR, hb⟩ | ⟨q, hq, hrR, hb⟩)
      · simp only [exactPred, Bool.and_eq_true, decide_eq_true_eq,
          Bool.not_eq_true'] at hb
        refine ⟨hrR, ?_⟩
        rw [hb.2]
        exact specMatch_self T (fun s hs => (hT s hs).2)
      · simp only [treePred, Bool.and_eq_true, decide_eq_true_eq] at hb
        obtain ⟨⟨hw, hv⟩, heq⟩ := hb
        refine ⟨hrR, ?_⟩
        rw [heq]
        exact (mem_matchingPaths T q hT (heq ▸ hv)).mp hq
    · rintro ⟨hrR, hm⟩
      cases hw : containsWildcard r.topic with
      | false =>
        left
        refine ⟨hrR, ?_⟩
        simp only [exactPred, Bool.and_eq_true, decide_eq_true_eq,
          Bool.not_eq_true']
        exact ⟨hw, (literal_specMatch r.topic (wildcardFree_segments _ hw) T).mp hm⟩
      | true =>
        right
        have hv : codeValid r.topic = true := by
          have ha := hinst r hrR
          simp only [addOk, Bool.or_eq_true, Bool.not_eq_true'] at ha
          rcases ha with h | h
          · rw [hw] at h
            cases h
          · exact h
        refine ⟨r.topic, (mem_matchingPaths T r.topic hT hv).mpr hm, hrR, ?_⟩
        simp only [treePred, Bool.and_eq_true, decide_eq_true_eq]
        exact ⟨⟨hw, hv⟩, trivial⟩
  · rw [List.nodup_append]
    refine ⟨hnd.filter _, ?_, ?_⟩
    · rw [List.nodup_flatMap]
      refine ⟨fun q _ => hnd.filter _, ?_⟩
      have hMnd := matchingPaths_nodup T hT
      exact hMnd.imp (fun {q q'} hne => by
        show List.Disjoint _ _
        intro x hx hx'
        simp only [List.mem_filter, treePred, Bool.and_eq_true,
          decide_eq_true_eq] at hx hx'
        exact hne (hx.2.2.symm.trans hx'.2.2))
    · intro x hx hx'
      simp only [List.mem_filter, exactPred, Bool.and_eq_true,
        decide_eq_true_eq, Bool.not_eq_true'] at hx
      simp only [List.mem_flatMap, List.mem_filter, treePred,
        Bool.and_eq_true, decide_eq_true_eq] at hx'
      obtain ⟨q, _, _, ⟨hw, _⟩, _⟩ := hx'
      exact absurd (hx.2.1.symm.trans hw) (by decide)

theorem rulesW_nodup : ([ruleExactW, rulePlusW] : List Rule).Nodup := by
  rw [List.nodup_cons]
  refine ⟨?_, List.nodup_singleton _⟩
  intro h
  rw [List.mem_singleton] at h
  exact absurd (congrArg Rule.topic h) (by decide)

/-- Witness for `find_returns_exact_matches`: one exact rule `a/b` and one
wildcard rule `a/+` on the topic `a/b`. -/
theorem find_returns_exact_matches_witness :
    (∀ r, r ∈ (buildIndex [ruleExactW, rulePlusW]).find ["a", "b"] ↔
      (r ∈ [ruleExactW, rulePlusW] ∧ specMatch r.topic ["a", "b"] = true)) ∧
    ((buildIndex [ruleExactW, rulePlusW]).find ["a", "b"]).Nodup :=
  find_returns_exact_matches [ruleExactW, rulePlusW] ["a", "b"]
    (by decide) rulesW_nodup (by decide) (by decide)

/-- C1 as stated is false at the empty topic: the installed rule `#`
matches the empty topic under the spec-4.1 semantics, yet `find` returns
the empty list. -/
theorem find_misses_matching_rule_on_empty_topic :
    ((buildIndex [ruleHashA]).find [""]).isEmpty = true ∧
    ruleHashA ∈ [ruleHashA] ∧
    specMatch ruleHashA.topic [""] = true :=
  ⟨rfl, by simp, rfl⟩

/-- C5, amended to non-empty topics: an installed rule whose entire pattern
is `#` is returned by `find` for every topic except the empty one. -/
theorem hash_rule_found_for_nonempty (R : List Rule) (r : Rule) (T : List String)
    (hr : r ∈ R) (htop : r.topic = ["#"]) (h0 : T ≠ []) (h1 : T ≠ [""]) :
    r ∈ (buildIndex R).find T := by
  obtain ⟨s, rest, rfl⟩ : ∃ s rest, T = s :: rest := by
    cases T with
    | nil => exact absurd rfl h0
    | cons a b => exact ⟨a, b, rfl⟩
  have hmem : r ∈ rulesAt (buildIndex R).wildcardTree ["#"] := by
    rw [rulesAt_buildIndex, List.mem_filter]
    refine ⟨hr, ?_⟩
    simp only [treePred, Bool.and_eq_true, decide_eq_true_eq, htop]
    exact ⟨⟨by decide, by decide⟩, trivial⟩
  have hchunk : (match lookupChild (buildIndex R).wildcardTree.children ("#") with
      | some c => c.rules
      | none => []) = rulesAt (buildIndex R).wildcardTree ["#"] := by
    cases hc : lookupChild (buildIndex R).wildcardTree.children ("#") <;>
      simp [rulesAt, hc]
  rw [RuleIndex.find, TopicTree.FindMatches, if_neg h1, List.mem_append]
  right
  have hin : r ∈ (match lookupChild (buildIndex R).wildcardTree.children ("#") with
      | some c => c.rules
      | none => []) := by
    rw [hchunk]
    exact hmem
  simp only [findMatches, List.mem_append]
  tauto

/-- Witness for `hash_rule_found_for_nonempty` on the topic `x/y`. -/
theorem hash_rule_found_for_nonempty_witness :
    ruleHashB ∈ (buildIndex [ruleHashB]).find ["x", "y"] :=
  hash_rule_found_for_nonempty [ruleHashB] ruleHashB ["x", "y"]
    (by simp) rfl (by decide) (by decide)

/-- C5 as stated is false at the empty topic: the `#` rule is not returned
for the empty topic. -/
theorem hash_rule_missed_on_empty_topic :
    ¬ ruleHashB ∈ (buildIndex [ruleHashB]).find [""] := by
  have he : (buildIndex [ruleHashB]).find [""] = [] := rfl
  rw [he]
  exact List.not_mem_nil _

/-- Spec-4.1 well-placedness implies the code's validation. -/
theorem specValid_imp_codeValid : ∀ p : List String,
    specValid p = true → codeValid p = true := by
  intro p
  induction p with
  | nil => intro _; rfl
  | cons s rest ih =>
    cases rest with
    | nil =>
      intro h
      simp only [specValid] at h
      simp only [codeValid]
      split at h
      · cases h
      · rename_i hcond
        rw [if_neg (fun hc => hcond (Or.inr hc))]
    | cons a b =>
      intro h
      simp only [specValid] at h
      split at h
      · cases h
      · rename_i hcond
        simp only [codeValid]
        have hs : s ≠ "#" := by
          intro he
          subst he
          exact hcond (Or.inl (by decide))
        rw [if_neg hs, if_neg (fun hc => hcond (Or.inr hc))]
        exact ih h

theorem add_ok_iff (idx : RuleIndex) (r : Rule) :
    (idx.add (some r)).2 = none ↔
      (containsWildcard r.topic = false ∨ codeValid r.topic = true) := by
  by_cases hw : containsWildcard r.topic = true
  · have hne2 : r.topic ≠ [""] := by
      intro h
      rw [h] at hw
      exact absurd hw (by decide)
    simp [RuleIndex.add, hw, TopicTree.AddRule, hne2, insert_ok_iff]
  · have hw' : containsWildcard r.topic = false := by
      cases h : containsWildcard r.topic
      · rfl
      · exact absurd h hw
    simp [RuleIndex.add, hw, hw']

theorem add_err_find_unchanged (idx : RuleIndex) (r : Rule) (e : String)
    (h : (idx.add (some r)).2 = some e) (T : List String) :
    ((idx.add (some r)).1).find T = idx.find T := by
  by_cases hw : containsWildcard r.topic = true
  · have hne2 : r.topic ≠ [""] := by
      intro he
      rw [he] at hw
      exact absurd hw (by decide)
    have hres : (insertRule idx.wildcardTree r.topic r).2 = some e := by
      simpa [RuleIndex.add, hw, TopicTree.AddRule, hne2] using h
    have hrAt : ∀ q, rulesAt (insertRule idx.wildcardTree r.topic r).1 q =
        rulesAt idx.wildcardTree q :=
      fun q => rulesAt_insert_err _ _ _ e hres q
    have hstep : (idx.add (some r)).1 =
        { idx with wildcardTree := (insertRule idx.wildcardTree r.topic r).1 } := by
      simp [RuleIndex.add, hw, TopicTree.AddRule, hne2]
    rw [hstep]
    unfold RuleIndex.find
    by_cases hT : T = [""]
    · simp [TopicTree.FindMatches, hT]
    · simp only [TopicTree.FindMatches, if_neg hT]
      rw [findMatches_eq, findMatches_eq, funext hrAt]
  · exfalso
    have : (idx.add (some r)).2 = none := by
      simp [RuleIndex.add, hw]
    rw [this] at h
    cases h

/-- C9, amended: `Add` rejects a nil rule; on a rule it fails exactly when
the pattern has a wildcard character and either a segment that is exactly
`#` in non-final position or a segment containing `+` without being exactly
`+` — so a `#` embedded in a longer segment is accepted (and matches only
literally); every spec-4.1 well-formed pattern is accepted; a failed add
leaves every lookup unchanged. -/
theorem add_error_characterization :
    (∀ idx : RuleIndex, (idx.add none).2 = some ("rule cannot be nil")) ∧
    (∀ (idx : RuleIndex) (r : Rule), (idx.add (some r)).2 = none ↔
      (containsWildcard r.topic = false ∨ codeValid r.topic = true)) ∧
    (∀ r : Rule, specValid r.topic = true →
      ∀ idx : RuleIndex, (idx.add (some r)).2 = none) ∧
    (∀ (idx : RuleIndex) (r : Rule) (e : String), (idx.add (some r)).2 = some e →
      ∀ T, ((idx.add (some r)).1).find T = idx.find T) :=
  ⟨fun _ => rfl,
   add_ok_iff,
   fun r hsv idx => (add_ok_iff idx r).mpr (Or.inr (specValid_imp_codeValid _ hsv)),
   add_err_find_unchanged⟩

/-- Witness for `add_error_characterization`: the well-formed wildcard
pattern `s/+/t` is accepted on the empty index. -/
theorem add_error_characterization_witness :
    (RuleIndex.empty.add (some ruleSpecOkW)).2 = none :=
  add_error_characterization.2.2.1 ruleSpecOkW (by decide) RuleIndex.empty

/-- C9 as stated is false for the pattern `a#b`: its `#` is not the entire
final segment, yet `Add` accepts the rule without an `InvalidPattern`
error. -/
theorem add_accepts_embedded_hash :
    (RuleIndex.empty.add (some ruleEmbeddedHash)).2 = none := rfl

theorem natsChar_roundtrip (c : Char) (h1 : c ≠ '.') (h2 : c ≠ '*') (h3 : c ≠ '>') :
    natsChar '.' '/' (natsChar '>' '#' (natsChar '*' '+'
      (natsChar '/' '.' (natsChar '#' '>' (natsChar '+' '*' c))))) = c := by
  by_cases e1 : c = '+'
  · subst e1; decide
  by_cases e2 : c = '#'
  · subst e2; decide
  by_cases e3 : c = '/'
  · subst e3; decide
  simp [natsChar, e1, e2, e3, h1, h2, h3]

/-- C10: for every MQTT topic containing none of the literal characters
`.`, `*`, `>`, translating to a NATS subject and back is the identity. -/
theorem nats_mqtt_roundtrip (t : List Char)
    (h : ∀ c ∈ t, c ≠ '.' ∧ c ≠ '*' ∧ c ≠ '>') :
    ToMQTTTopic (ToNATSSubject t) = t := by
  induction t with
  | nil => rfl
  | cons c rest ih =>
    have hc := h c (by simp)
    have hr := ih (fun x hx => h x (by simp [hx]))
    simp only [ToNATSSubject, ToMQTTTopic, List.map_cons, List.cons.injEq] at hr ⊢
    exact ⟨natsChar_roundtrip c hc.1 hc.2.1 hc.2.2, hr⟩

/-- Witness for `nats_mqtt_roundtrip` on the topic `a/+`. -/
theorem nats_mqtt_roundtrip_witness :
    ToMQTTTopic (ToNATSSubject ['a', '/', '+']) = ['a', '/', '+'] :=
  nats_mqtt_roundtrip ['a', '/', '+'] (by decide)

theorem substVars_ok_all_resolved (values : ValueMap) :
    ∀ (vars : List String) (res s : String),
      V2.substVars values true vars res = .ok s →
      ∀ v ∈ vars, ∃ val, lookupVal values v = some val := by
  intro vars
  induction vars with
  | nil =>
    intro res s _ v hv
    cases hv
  | cons a rest ih =>
    intro res s hok v hv
    simp only [V2.substVars] at hok
    cases hl : lookupVal values a with
    | some val =>
      rw [hl] at hok
      rcases List.mem_cons.mp hv with rfl | hv'
      · exact ⟨val, hl⟩
      · exact ih _ _ hok v hv'
    | none =>
      rw [hl] at hok
      simp at hok

theorem substVars_error_on_missing (values : ValueMap) :
    ∀ (vars : List String) (res : String),
      (∃ v ∈ vars, lookupVal values v = none) →
      ∃ e, V2.substVars values true vars res = .error e := by
  intro vars
  induction vars with
  | nil =>
    rintro res ⟨v, hv, _⟩
    cases hv
  | cons a rest ih =>
    rintro res ⟨v, hv, hnone⟩
    simp only [V2.substVars]
    cases hl : lookupVal values a with
    | some val =>
      rcases List.mem_cons.mp hv with rfl | hv'
      · rw [hl] at hnone
        cases hnone
      · exact ih _ ⟨v, hv', hnone⟩
    | none =>
      exact ⟨"required template variable " ++ a ++ " not found", by simp⟩

/-- C3: in the current renderer, a topic-template placeholder that cannot
be resolved against the value map is a hard error — `processTemplate`
errors, so `processActionTemplate` produces no action — and a successfully
rendered topic template had every one of its scanned placeholders
resolved. -/
theorem topic_template_missing_var_is_hard_error :
    (∀ (tmpl : String) (values : ValueMap),
      (∃ v ∈ scanVars tmpl.toList, lookupVal values v = none) →
      ∃ e, V2.processTemplate tmpl values true = .error e) ∧
    (∀ (tmpl : String) (values : ValueMap) (s : String),
      V2.processTemplate tmpl values true = .ok s →
      ∀ v ∈ scanVars tmpl.toList, ∃ val, lookupVal values v = some val) ∧
    (∀ (act : Action) (values : ValueMap),
      (∃ v ∈ scanVars act.topic.toList, lookupVal values v = none) →
      ∃ e, V2.processActionTemplate act values = .error e) := by
  have h1 : ∀ (tmpl : String) (values : ValueMap),
      (∃ v ∈ scanVars tmpl.toList, lookupVal values v = none) →
      ∃ e, V2.processTemplate tmpl values true = .error e := by
    intro tmpl values hex
    rw [V2.processTemplate]
    by_cases ht : tmpl = ""
    · subst ht
      obtain ⟨v, hv, _⟩ := hex
      have hnil : scanVars ("" : String).toList = [] := rfl
      rw [hnil] at hv
      cases hv
    · rw [if_neg ht]
      exact substVars_error_on_missing values _ tmpl hex
  refine ⟨h1, ?_, ?_⟩
  · intro tmpl values s hok v hv
    rw [V2.processTemplate] at hok
    by_cases ht : tmpl = ""
    · subst ht
      have hnil : scanVars ("" : String).toList = [] := rfl
      rw [hnil] at hv
      cases hv
    · rw [if_neg ht] at hok
      exact substVars_ok_all_resolved values _ _ _ hok v hv
  · intro act values hex
    obtain ⟨e, he⟩ := h1 act.topic values hex
    refine ⟨"failed to process topic template: " ++ e, ?_⟩
    rw [V2.processActionTemplate, he]

/-- Witness for `topic_template_missing_var_is_hard_error`: the topic
template `x/$\x7bdev\x7d` against an empty value map. -/
theorem topic_template_missing_var_is_hard_error_witness :
    ∃ e, V2.processTemplate ("x/$\x7bdev\x7d") [] true = .error e :=
  topic_template_missing_var_is_hard_error.1 ("x/$\x7bdev\x7d") []
    ⟨"dev", by decide, rfl⟩

/-- C7, amended: the repository's `getValueFromPath` resolves a dotted path
by walking the segments through the nested value map — `a.b` denotes
`values["a"]["b"]`, failing when a key is absent or an intermediate is not
a map. -/
theorem getValueFromPath_walks (data m : ValueMap) (k1 k2 : String) :
    (lookupVal data k1 = some (.obj m) →
      getValueFromPath data [k1, k2] =
        (match lookupVal m k2 with
         | some v => .ok v
         | none => .error ("key not found: " ++ k2))) ∧
    (lookupVal data k1 = none →
      getValueFromPath data [k1, k2] = .error ("key not found: " ++ k1)) ∧
    (∀ w, lookupVal data k1 = some w → (∀ fields, w ≠ .obj fields) →
      getValueFromPath data [k1, k2] =
        .error ("invalid path: " ++ k2 ++ " is not a map")) := by
  refine ⟨?_, ?_, ?_⟩
  · intro h
    cases hl : lookupVal m k2 <;> simp [getValueFromPath, walkPath, h, hl]
  · intro h
    simp [getValueFromPath, walkPath, h]
  · intro w h hnm
    cases w with
    | null => simp [getValueFromPath, walkPath, h]
    | bool b => simp [getValueFromPath, walkPath, h]
    | num n => simp [getValueFromPath, walkPath, h]
    | str s => simp [getValueFromPath, walkPath, h]
    | obj fields => exact absurd rfl (hnm fields)

/-- Witness for `getValueFromPath_walks`: `a.b` resolves through the nested
map to the stored value. -/
theorem getValueFromPath_walks_witness :
    getValueFromPath [("a", .obj [("b", .str "seven")])] ["a", "b"] =
      .ok (.str "seven") :=
  (getValueFromPath_walks [("a", .obj [("b", .str "seven")])]
    [("b", .str "seven")] "a" "b").1 rfl

/-- C7 as stated is false for the current renderer: the placeholder
`$\x7ba.b\x7d` is looked up as the single top-level key `a.b`, so the topic
template fails to render even though `values["a"]["b"]` exists. -/
theorem renderer_does_not_walk_dotted_paths :
    (V2.processTemplate ("$\x7ba.b\x7d")
      [("a", .obj [("b", .str "seven")])] true).isOk = false := rfl

/-- C8, amended: the coercion rows for string, boolean and integer-valued
floats hold in both revisions, but null renders as `"null"` only in the
legacy `convertToString`; the current `convertValueToString` renders null
as the empty string. -/
theorem coercion_table_rows :
    (∀ s, V1.convertToString (.str s) = s) ∧
    (V1.convertToString (.bool true) = "true" ∧
      V1.convertToString (.bool false) = "false") ∧
    (∀ n : Int, V1.convertToString (.num n) = toString n) ∧
    (V1.convertToString .null = "null") ∧
    (∀ s, V2.convertValueToString (.str s) = s) ∧
    (V2.convertValueToString (.bool true) = "true" ∧
      V2.convertValueToString (.bool false) = "false") ∧
    (∀ n : Int, V2.convertValueToString (.num n) = toString n) ∧
    (V2.convertValueToString .null = "") :=
  ⟨fun _ => rfl, ⟨rfl, rfl⟩, fun _ => rfl, rfl, fun _ => rfl, ⟨rfl, rfl⟩,
   fun _ => rfl, rfl⟩

/-- C8 as stated is false: the current renderer coerces null to the empty
string, not to the string `null`. -/
theorem null_renders_empty_in_current_renderer :
    V2.convertValueToString .null ≠ "null" := by decide

theorem allGroups_eq (gs : List Conditions) (v : ValueMap) :
    allGroups gs v = gs.all (fun g => evaluateConditionsC g v) := by
  induction gs with
  | nil => rfl
  | cons g t ih => simp [allGroups, List.all_cons, ih]

theorem anyGroups_eq (gs : List Conditions) (v : ValueMap) :
    anyGroups gs v = gs.any (fun g => evaluateConditionsC g v) := by
  induction gs with
  | nil => rfl
  | cons g t ih => simp [anyGroups, List.any_cons, ih]

/-- C4, amended: nil conditions and a group with no items and no groups
evaluate TRUE (for both operators — the empty-conditions rule takes
precedence over the OR identity); otherwise AND is the conjunction and OR
the disjunction of the sub-results, one per leaf item and one per nested
group. -/
theorem evaluate_conditions_combination :
    (∀ v, evaluateConditions none v = true) ∧
    (∀ op v, evaluateConditionsC (.mk op [] []) v = true) ∧
    (∀ its gs v, evaluateConditionsC (.mk ("and") its gs) v =
      (its.all (fun c => evaluateCondition c v) &&
        gs.all (fun g => evaluateConditionsC g v))) ∧
    (∀ its gs v, its ≠ [] ∨ gs ≠ [] →
      evaluateConditionsC (.mk ("or") its gs) v =
        (its.any (fun c => evaluateCondition c v) ||
          gs.any (fun g => evaluateConditionsC g v))) := by
  refine ⟨fun _ => rfl, fun op v => by simp [evaluateConditionsC], ?_, ?_⟩
  · intro its gs v
    by_cases h1 : (its.isEmpty && gs.isEmpty) = true
    · have h2 := h1
      rw [Bool.and_eq_true] at h2
      rw [List.isEmpty_iff] at h2
      obtain ⟨h3, h4⟩ := h2
      subst h3
      rw [List.isEmpty_iff] at h4
      subst h4
      simp [evaluateConditionsC]
    · simp only [evaluateConditionsC, allGroups_eq, if_neg h1]
  · intro its gs v hne
    have h1 : ¬((its.isEmpty && gs.isEmpty) = true) := by
      rcases hne with h | h
      · simp [List.isEmpty_iff, h]
      · simp [List.isEmpty_iff, h]
    simp only [evaluateConditionsC, anyGroups_eq, if_neg h1]

/-- Witness for `evaluate_conditions_combination`: an OR group with one
nested group combines the group results. -/
theorem evaluate_conditions_combination_witness :
    evaluateConditionsC (.mk ("or") [] [Conditions.mk ("and") [] []]) [] =
      (([] : List Condition).any (fun c => evaluateCondition c []) ||
        [Conditions.mk ("and") [] []].any (fun g => evaluateConditionsC g [])) :=
  evaluate_conditions_combination.2.2.2 [] [Conditions.mk ("and") [] []] []
    (Or.inr (by simp))

/-- C4 as stated is false at the OR group with no items and no groups: the
empty-conditions rule makes it TRUE, while the claim's OR clause demands
FALSE. -/
theorem or_empty_conditions_evaluates_true :
    evaluateConditionsC (.mk ("or") [] []) [] = true := rfl

/-- Rule-loop characterization of the current `Process`: results are the
successful renders of the eligible rules in order, `errors` grows by one
per failed render, `matched` by one per successful render, and `lastErr`
stays clear exactly when no eligible render failed. -/
theorem ruleLoop_spec (values : ValueMap) (sb : String) :
    ∀ (rules : List Rule) (st : V2.LoopState),
      (V2.ruleLoop values sb rules st).results =
        st.results ++ V2.loopResults values sb rules ∧
      (V2.ruleLoop values sb rules st).errors =
        st.errors + (V2.loopFailures values sb rules).length ∧
      (V2.ruleLoop values sb rules st).matched =
        st.matched + (V2.loopResults values sb rules).length ∧
      ((V2.ruleLoop values sb rules st).lastErr = none ↔
        (st.lastErr = none ∧ V2.loopFailures values sb rules = [])) := by
  intro rules
  induction rules with
  | nil =>
    intro st
    simp [V2.ruleLoop, V2.loopResults, V2.loopFailures]
  | cons r rest ih =>
    intro st
    cases he : r.enabled with
    | false =>
      have helig : V2.eligible values sb r = false := by
        simp [V2.eligible, he]
      have hres : V2.loopResults values sb (r :: rest) =
          V2.loopResults values sb rest := by
        simp [V2.loopResults, List.filterMap_cons, helig]
      have hfail : V2.loopFailures values sb (r :: rest) =
          V2.loopFailures values sb rest := by
        simp [V2.loopFailures, List.filter_cons, helig]
      have hloop : V2.ruleLoop values sb (r :: rest) st =
          V2.ruleLoop values sb rest st := by
        simp [V2.ruleLoop, he]
      rw [hloop, hres, hfail]
      exact ih st
    | true =>
      by_cases hsb : r.sourceBroker ≠ "" ∧ r.sourceBroker ≠ sb
      · have hb1 : (r.sourceBroker == "") = false := by
          simp [hsb.1]
        have hb2 : (r.sourceBroker == sb) = false := by
          simp [hsb.2]
        have helig : V2.eligible values sb r = false := by
          simp [V2.eligible, he, hb1, hb2]
        have hres : V2.loopResults values sb (r :: rest) =
            V2.loopResults values sb rest := by
          simp [V2.loopResults, List.filterMap_cons, helig]
        have hfail : V2.loopFailures values sb (r :: rest) =
            V2.loopFailures values sb rest := by
          simp [V2.loopFailures, List.filter_cons, helig]
        have hloop : V2.ruleLoop values sb (r :: rest) st =
            V2.ruleLoop values sb rest st := by
          simp [V2.ruleLoop, he, hsb]
        rw [hloop, hres, hfail]
        exact ih st
      · have hbOr : (r.sourceBroker == "" || r.sourceBroker == sb) = true := by
          rcases not_and_or.mp hsb with h | h
          · rw [not_ne_iff] at h
            simp [h]
          · rw [not_ne_iff] at h
            simp [h]
        by_cases hc : evaluateConditions r.conditions values = true
        · have helig : V2.eligible values sb r = true := by
            simp [V2.eligible, he, hbOr, hc]
          cases hrender : V2.processActionTemplate r.action values with
          | error e =>
            have hrr : V2.renderResult values r = none := by
              simp [V2.renderResult, hrender]
            have hres : V2.loopResults values sb (r :: rest) =
                V2.loopResults values sb rest := by
              simp [V2.loopResults, List.filterMap_cons, helig, hrr]
            have hfail : V2.loopFailures values sb (r :: rest) =
                r :: V2.loopFailures values sb rest := by
              simp [V2.loopFailures, List.filter_cons, helig, hrr]
            have hloop : V2.ruleLoop values sb (r :: rest) st =
                V2.ruleLoop values sb rest
                  { st with errors := st.errors + 1, lastErr := some e } := by
              simp [V2.ruleLoop, he, hsb, hc, hrender]
            rw [hloop, hres, hfail]
            obtain ⟨i1, i2, i3, i4⟩ :=
              ih { st with errors := st.errors + 1, lastErr := some e }
            refine ⟨i1, ?_, i3, ?_⟩
            · rw [i2]
              simp only [List.length_cons]
              omega
            · constructor
              · intro h
                rw [i4] at h
                exact absurd h.1 (by simp)
              · rintro ⟨_, hcons⟩
                cases hcons
          | ok a =>
            have hrr : V2.renderResult values r = some ⟨r, a, values⟩ := by
              simp [V2.renderResult, hrender]
            have hres : V2.loopResults values sb (r :: rest) =
                (⟨r, a, values⟩ : V2.MatchResult) :: V2.loopResults values sb rest := by
              simp [V2.loopResults, List.filterMap_cons, helig, hrr]
            have hfail : V2.loopFailures values sb (r :: rest) =
                V2.loopFailures values sb rest := by
              simp [V2.loopFailures, List.filter_cons, helig, hrr]
            have hloop : V2.ruleLoop values sb (r :: rest) st =
                V2.ruleLoop values sb rest
                  { st with results := st.results ++ [⟨r, a, values⟩],
                            matched := st.matched + 1 } := by
              simp [V2.ruleLoop, he, hsb, hc, hrender]
            rw [hloop, hres, hfail]
            obtain ⟨i1, i2, i3, i4⟩ :=
              ih { st with results := st.results ++ [⟨r, a, values⟩],
                           matched := st.matched + 1 }
            refine ⟨?_, i2, ?_, i4⟩
            · rw [i1]
              simp [List.append_assoc]
            · rw [i3]
              simp only [List.length_cons]
              omega
        · have hc' : evaluateConditions r.conditions values = false := by
            cases h : evaluateConditions r.conditions values
            · rfl
            · exact absurd h hc
          have helig : V2.eligible values sb r = false := by
            simp [V2.eligible, hc']
          have hres : V2.loopResults values sb (r :: rest) =
              V2.loopResults values sb rest := by
            simp [V2.loopResults, List.filterMap_cons, helig]
          have hfail : V2.loopFailures values sb (r :: rest) =
              V2.loopFailures values sb rest := by
            simp [V2.loopFailures, List.filter_cons, helig]
          have hloop : V2.ruleLoop values sb (r :: rest) st =
              V2.ruleLoop values sb rest st := by
            simp [V2.ruleLoop, he, hsb, hc']
          rw [hloop, hres, hfail]
          exact ih st

/-- C6, amended: a failed action render is skipped and counted — the
results of the rule loop are exactly the successful renders of the eligible
rules, in order and unaffected by failures among the other rules, while the
errors counter grows by one per eligible rule whose render failed (it is
not left unchanged). -/
theorem render_error_skipped_counted_continues (values : ValueMap) (sb : String)
    (rules : List Rule) (m0 e0 : Nat) :
    (V2.ruleLoop values sb rules ⟨[], none, m0, e0⟩).results =
      V2.loopResults values sb rules ∧
    (V2.ruleLoop values sb rules ⟨[], none, m0, e0⟩).errors =
      e0 + (V2.loopFailures values sb rules).length := by
  obtain ⟨h1, h2, _, _⟩ := ruleLoop_spec values sb rules ⟨[], none, m0, e0⟩
  exact ⟨by simpa using h1, h2⟩

/-- C6 as stated is false: with one failing and one rendering rule on the
same topic, Process succeeds with the surviving action but the errors
counter increases by 1. -/
theorem render_error_increments_errors :
    (V2.Processor.process procMixed (some msgT)).2 =
      .ok [⟨ruleT1, actPlain, [("x", .num 1)]⟩] ∧
    (V2.Processor.process procMixed (some msgT)).1.stats.errors =
      procMixed.stats.errors + 1 := by
  constructor
  · rfl
  · rfl

/-- A successful `process` run implies a non-empty topic and a successful
value-map resolution. -/
theorem process_ok_effectiveValues (p : V2.Processor) (msg : V2.ProcessedMessage)
    (results : List V2.MatchResult)
    (hok : (V2.Processor.process p (some msg)).2 = .ok results) :
    msg.topic ≠ [""] ∧ ∃ vm, V2.resolveValues msg = .ok vm := by
  by_cases ht : msg.topic = [""]
  · simp [V2.Processor.process, ht] at hok
  · refine ⟨ht, ?_⟩
    simp only [V2.Processor.process, if_neg ht] at hok
    cases hv : V2.resolveValues msg with
    | error e =>
      rw [hv] at hok
      exact Except.noConfusion (show Except.error e = Except.ok results from hok)
    | ok vm => exact ⟨vm, rfl⟩

/-- A `process` run on a non-empty topic whose value map resolves is the
matching phase on the resolved map. -/
theorem process_some_eq (p : V2.Processor) (msg : V2.ProcessedMessage)
    (ht : msg.topic ≠ [""]) (vm : ValueMap)
    (hv : V2.resolveValues msg = .ok vm) :
    V2.Processor.process p (some msg) = p.processCore msg vm := by
  simp only [V2.Processor.process]
  rw [if_neg ht, hv]

/-- C2, amended: a successfully processed message bumps `processed` by
exactly 1; `matched` grows by the number of eligible rules whose action
rendered (not merely by one when at least one action was produced); and
`errors` grows by the number of eligible rules whose render failed — which
is zero exactly when every render succeeded. -/
theorem process_counter_deltas (p : V2.Processor) (msg : V2.ProcessedMessage)
    (results : List V2.MatchResult)
    (hok : (V2.Processor.process p (some msg)).2 = .ok results) :
    ∃ vm, V2.effectiveValues msg = some vm ∧
      (V2.Processor.process p (some msg)).1.stats.processed = p.stats.processed + 1 ∧
      (V2.Processor.process p (some msg)).1.stats.matched =
        p.stats.matched +
          (V2.loopResults vm msg.sourceBroker (p.index.find msg.topic)).length ∧
      (V2.Processor.process p (some msg)).1.stats.errors =
        p.stats.errors +
          (V2.loopFailures vm msg.sourceBroker (p.index.find msg.topic)).length ∧
      results = V2.loopResults vm msg.sourceBroker (p.index.find msg.topic) := by
  obtain ⟨ht, vm, hv⟩ := process_ok_effectiveValues p msg results hok
  have heff : V2.effectiveValues msg = some vm := by
    simp [V2.effectiveValues, hv, Except.toOption]
  have heq := process_some_eq p msg ht vm hv
  rw [heq] at hok ⊢
  refine ⟨vm, heff, ?_⟩
  obtain ⟨s1, s2, s3, s4⟩ := ruleLoop_spec vm msg.sourceBroker
    (p.index.find msg.topic) ⟨[], none, p.stats.matched, p.stats.errors⟩
  simp only [List.nil_append] at s1
  simp only [V2.Processor.processCore] at hok ⊢
  by_cases hre : (p.index.find msg.topic).isEmpty = true
  · have hfind := List.isEmpty_iff.mp hre
    rw [if_pos hre] at hok ⊢
    have hok2 : Except.ok ([] : List V2.MatchResult) = Except.ok results := hok
    injection hok2 with h2
    refine ⟨rfl, ?_, ?_, ?_⟩
    · simp [hfind, V2.loopResults]
    · simp [hfind, V2.loopFailures]
    · rw [← h2]
      simp [hfind, V2.loopResults]
  · rw [if_neg hre] at hok ⊢
    by_cases hresE : (V2.ruleLoop vm msg.sourceBroker (p.index.find msg.topic)
        ⟨[], none, p.stats.matched, p.stats.errors⟩).results.isEmpty = true
    · rw [if_pos hresE] at hok ⊢
      have hlr : V2.loopResults vm msg.sourceBroker (p.index.find msg.topic) = [] := by
        have h5 := List.isEmpty_iff.mp hresE
        rw [s1] at h5
        exact h5
      cases hle : (V2.ruleLoop vm msg.sourceBroker (p.index.find msg.topic)
          ⟨[], none, p.stats.matched, p.stats.errors⟩).lastErr with
      | some e =>
        rw [hle] at hok
        exact Except.noConfusion (show Except.error e = Except.ok results from hok)
      | none =>
        rw [hle] at hok
        have hok2 : Except.ok ([] : List V2.MatchResult) = Except.ok results := hok
        injection hok2 with h2
        refine ⟨rfl, ?_, ?_, ?_⟩
        · simpa [hlr] using s3
        · exact s2
        · rw [← h2]
          exact hlr.symm
    · rw [if_neg hresE] at hok ⊢
      have hok2 : Except.ok ((V2.ruleLoop vm msg.sourceBroker (p.index.find msg.topic)
          ⟨[], none, p.stats.matched, p.stats.errors⟩).results) = Except.ok results := hok
      injection hok2 with h2
      refine ⟨rfl, ?_, ?_, ?_⟩
      · exact s3
      · exact s2
      · rw [← h2]
        exact s1

/-- Witness for the counter deltas: `procTwo` successfully processes `msgT`
into `resultsTwo`, and the deltas are as characterized. -/
theorem process_counter_deltas_witness :
    (V2.Processor.process procTwo (some msgT)).2 = .ok resultsTwo ∧
    ∃ vm, V2.effectiveValues msgT = some vm ∧
      (V2.Processor.process procTwo (some msgT)).1.stats.processed =
        procTwo.stats.processed + 1 ∧
      (V2.Processor.process procTwo (some msgT)).1.stats.matched =
        procTwo.stats.matched +
          (V2.loopResults vm msgT.sourceBroker (procTwo.index.find msgT.topic)).length ∧
      (V2.Processor.process procTwo (some msgT)).1.stats.errors =
        procTwo.stats.errors +
          (V2.loopFailures vm msgT.sourceBroker (procTwo.index.find msgT.topic)).length ∧
      resultsTwo = V2.loopResults vm msgT.sourceBroker (procTwo.index.find msgT.topic) :=
  ⟨rfl, process_counter_deltas procTwo msgT resultsTwo rfl⟩

/-- C2 as stated is false: one successfully processed message that matches
two rules raises the `matched` counter by 2, not by 1. -/
theorem matched_counts_rules_not_messages :
    (V2.Processor.process procTwo (some msgT)).2 = .ok resultsTwo ∧
    (V2.Processor.process procTwo (some msgT)).1.stats.matched =
      procTwo.stats.matched + 2 :=
  ⟨rfl, rfl⟩

end MqttMux
